import Mathlib

/-!
# Verification of the zettacache index and resilient object-access layer

Shallow embedding of `src/cmd/zfs_object_agent/src/index.rs` and
`src/cmd/zfs_object_agent/src/object_access.rs`, together with theorems
settling the behavioural claims about them.

Machine integers (`u64`, `usize`) are modelled as `Nat`; byte buffers as
`List Nat`; Rust `Option`/fallible paths as `Option`; a Rust panic as the
`none` of an `Option`-valued result.
-/

namespace ZfsIndex

/-! ## Data model (index.rs lines 9-31)

`IndexKey`, `IndexValue`, `IndexEntry` are plain data carried through the
index; `PoolGuid`, `BlockId`, `DiskLocation`, `Atime` are newtypes over
machine integers in the source and are modelled as `Nat`.
-/

structure IndexKey where
  guid : Nat
  block : Nat
  deriving DecidableEq, Repr

structure IndexValue where
  location : Nat
  size : Nat
  atime : Nat
  deriving DecidableEq, Repr

structure IndexEntry where
  key : IndexKey
  value : IndexValue
  deriving DecidableEq, Repr

/-- Modelled from the spec: `AtimeHistogramPhys` lives in
`zettacache.rs`, which is not part of the provided sources.  Per the spec
(§3, §4.1) it holds counts of entries (and bytes) bucketed by
last-access-time plus a scalar `start`; `insert(value)` records
`value.size`/count into the bucket for `value.atime`; `set_start(t)` sets
the threshold; `get_start()` reads it; `clear()` zeroes bucket counts. -/
structure AtimeHistogramPhys where
  /-- per-atime-bucket entry count -/
  counts : Nat → Nat
  /-- per-atime-bucket byte total -/
  bytes : Nat → Nat
  /-- retention threshold: the oldest access time still retained -/
  start : Nat

namespace AtimeHistogramPhys

/-- Modelled from the spec: records `value.size`/count into the bucket for
`value.atime`; never fails, does not touch `start`. -/
def insert (h : AtimeHistogramPhys) (v : IndexValue) : AtimeHistogramPhys :=
  { h with
    counts := fun a => if a = v.atime then h.counts a + 1 else h.counts a
    bytes := fun a => if a = v.atime then h.bytes a + v.size else h.bytes a }

/-- Modelled from the spec: sets the retention threshold. -/
def set_start (h : AtimeHistogramPhys) (t : Nat) : AtimeHistogramPhys :=
  { h with start := t }

/-- Modelled from the spec: current threshold. -/
def get_start (h : AtimeHistogramPhys) : Nat :=
  h.start

/-- Modelled from the spec: zeroes bucket counts (`start` is a separate
field; §4.1 says `clear()` zeroes bucket counts only). -/
def clear (h : AtimeHistogramPhys) : AtimeHistogramPhys :=
  { h with counts := fun _ => 0, bytes := fun _ => 0 }

end AtimeHistogramPhys

/-- Modelled from the spec: the Index Log
(`BlockBasedLogWithSummary<IndexEntry>`, defined in `block_based_log.rs`,
not part of the provided sources).  Per §6 it is an append-only sequence of
`IndexEntry` records with an in-memory summary queryable by key; its
durable descriptor (`BlockBasedLogWithSummaryPhys`) round-trips through
`open`/`flush` without loss, so both the live log and the descriptor are
modelled as the list of appended entries. -/
def IndexLog : Type := List IndexEntry

/-- Modelled from the spec: the durable descriptor of the Index Log. -/
def IndexLogPhys : Type := List IndexEntry

namespace IndexLog

/-- Modelled from the spec: reconstructs the in-memory log (and its
summary) from the durable descriptor; device and allocator handles do not
affect the logical contents. -/
def open_ (phys : IndexLogPhys) : IndexLog :=
  phys

/-- Modelled from the spec: appends an entry at the end of the log. -/
def append (log : IndexLog) (e : IndexEntry) : IndexLog :=
  List.append log [e]

/-- Modelled from the spec: persists outstanding records and returns the
durable descriptor; the in-memory log is unchanged (flush is not
destructive). -/
def flush (log : IndexLog) : IndexLogPhys × IndexLog :=
  (log, log)

/-- Modelled from the spec: empties the log. -/
def clear (_log : IndexLog) : IndexLog :=
  []

/-- Modelled from the spec: the summary is queryable by key; an entry is
never edited in place but re-appended, so the live value for a key is the
last appended entry with that key. -/
def lookup (log : IndexLog) (k : IndexKey) : Option IndexValue :=
  (log.reverse.find? (fun e => e.key = k)).map (fun e => e.value)

end IndexLog

/-! ## ZettaCacheIndex (index.rs lines 34-88) -/

structure ZettaCacheIndex where
  atime_histogram : AtimeHistogramPhys
  log : IndexLog

structure ZettaCacheIndexPhys where
  atime_histogram : AtimeHistogramPhys
  log : IndexLogPhys

namespace ZettaCacheIndex

/-- `ZettaCacheIndex::open` (index.rs lines 46-55): histogram taken
verbatim from `phys`, log opened from its descriptor. -/
def open_ (phys : ZettaCacheIndexPhys) : ZettaCacheIndex :=
  { atime_histogram := phys.atime_histogram
    log := IndexLog.open_ phys.log }

/-- `ZettaCacheIndex::flush` (index.rs lines 57-62): returns the snapshot
`{ histogram clone, log.flush() }`; also returns the post-flush in-memory
state (which the Rust `&mut self` leaves live). -/
def flush (s : ZettaCacheIndex) : ZettaCacheIndexPhys × ZettaCacheIndex :=
  let (phys, log') := IndexLog.flush s.log
  ({ atime_histogram := s.atime_histogram, log := phys },
   { s with log := log' })

/-- `ZettaCacheIndex::set_histogram_start` (index.rs lines 64-66). -/
def set_histogram_start (s : ZettaCacheIndex) (start : Nat) : ZettaCacheIndex :=
  { s with atime_histogram := s.atime_histogram.set_start start }

/-- `ZettaCacheIndex::append` (index.rs lines 68-71): inserts into the
histogram and appends to the log. -/
def append (s : ZettaCacheIndex) (e : IndexEntry) : ZettaCacheIndex :=
  { s with
    atime_histogram := s.atime_histogram.insert e.value
    log := s.log.append e }

/-- Backing-store routines a cache-index operation could invoke; the only
one in scope is block eviction (`evict_block`), which the source pointedly
does not call (index.rs lines 78-79). -/
inductive CacheEffect where
  | evictBlock (e : IndexEntry)
  deriving DecidableEq, Repr

/-- `ZettaCacheIndex::append_or_evict` (index.rs lines 73-80): appends iff
`entry.value.atime >= histogram.get_start()`; the else branch does nothing
(in particular it does not call `evict_block`).  The second component
records the backing-store routines invoked, which is none on either
branch. -/
def append_or_evict (s : ZettaCacheIndex) (e : IndexEntry) :
    ZettaCacheIndex × List CacheEffect :=
  if e.value.atime ≥ s.atime_histogram.get_start then
    (s.append e, [])
  else
    (s, [])

/-- `ZettaCacheIndex::clear` (index.rs lines 82-85). -/
def clear (s : ZettaCacheIndex) : ZettaCacheIndex :=
  { s with
    atime_histogram := s.atime_histogram.clear
    log := s.log.clear }

end ZettaCacheIndex

/-- The mutating operations a client may apply between open and flush
(claim C2 quantifies over sequences of these). -/
inductive IndexOp where
  | append (e : IndexEntry)
  | appendOrEvict (e : IndexEntry)
  | setHistogramStart (t : Nat)

/-- Apply one mutating operation. -/
def applyOp (s : ZettaCacheIndex) : IndexOp → ZettaCacheIndex
  | .append e => s.append e
  | .appendOrEvict e => (s.append_or_evict e).1
  | .setHistogramStart t => s.set_histogram_start t

/-- Apply a sequence of mutating operations, first element first. -/
def applyOps (s : ZettaCacheIndex) : List IndexOp → ZettaCacheIndex
  | [] => s
  | op :: ops => applyOps (applyOp s op) ops

end ZfsIndex

namespace ObjAccess

/-! ## Resilient object client (object_access.rs)

Byte buffers are `List Nat`; remote keys are `String`.  The namespace
prefix (`PREFIX`, object_access.rs lines 29-32: `AWS_PREFIX` plus `"/"`,
or empty) is passed explicitly as a parameter `pfx`.
-/

abbrev Bytes := List Nat

/-- `prefixed` (object_access.rs lines 44-47): prepend the configured
namespace prefix to an object key. -/
def prefixed (pfx : String) (key : String) : String :=
  pfx ++ key

/-! ### The generic retry primitive (object_access.rs lines 49-90)

`retry` repeatedly invokes the attempt closure, which returns a pair
`(retryable, result)`.  The loop retries only on `(true, Err _)`: it sleeps
for the current delay and then multiplies the delay by a random factor; on
any other pair it breaks immediately with the result.  The initial delay
is a uniform random value in `[0.001, 0.2)` seconds and each factor is a
uniform random value in `[1.5, 2.5)`.  Randomness is modelled as explicit
inputs (`delay`/`factors`), durations as exact rationals (seconds), and
the unbounded `loop` via fuel: `result = none` means the loop was still
retrying after `fuel` attempts. -/

/-- The guard of the retry loop: the attempt is retried iff it reported
`(true, Err _)` (object_access.rs lines 58-75). -/
def isRetryableFailure {E O : Type} : Bool × Except E O → Bool
  | (true, .error _) => true
  | _ => false

/-- Outcome of running the retry loop: attempts made, the sleeps performed
(in order, in seconds), and the final result if the loop broke. -/
structure RetryRun (E O : Type) where
  attemptsMade : Nat
  sleeps : List ℚ
  result : Option (Except E O)

/-- The `retry` loop (object_access.rs lines 56-80): attempt; on a
retryable failure sleep the current delay and continue with the delay
multiplied by the next random factor; otherwise break with the result. -/
def retryRun {E O : Type} (attempts : Nat → Bool × Except E O) (delay : ℚ)
    (factors : Nat → ℚ) : Nat → RetryRun E O
  | 0 => ⟨0, [], none⟩
  | fuel + 1 =>
    if isRetryableFailure (attempts 0) then
      let r := retryRun (fun n => attempts (n + 1)) (delay * factors 0)
        (fun n => factors (n + 1)) fuel
      ⟨r.attemptsMade + 1, delay :: r.sleeps, r.result⟩
    else
      ⟨1, [], some (attempts 0).2⟩

/-! ### GET (object_access.rs lines 135-174) -/

/-- A response of the remote store to one GET request. -/
inductive GetResp where
  | ok (data : Bytes)
  | noSuchKey
  | otherErr (code : Nat)
  deriving DecidableEq

/-- GET error as seen by the retry loop. -/
inductive GetErr where
  | noSuchKey
  | other (code : Nat)
  deriving DecidableEq

/-- The per-attempt classification inside `get_object_impl`
(object_access.rs lines 144-149): `Ok` ↦ `(true, res)`;
`NoSuchKey` ↦ `(false, res)`; any other error ↦ `(true, res)`. -/
def getAttempt : GetResp → Bool × Except GetErr Bytes
  | .ok d => (true, .ok d)
  | .noSuchKey => (false, .error .noSuchKey)
  | .otherErr c => (true, .error (.other c))

/-- Caller-visible outcome of `get_object_impl`: the object's bytes, or a
process panic (the `.unwrap()` on object_access.rs line 152 applied to the
`Err` that `retry` breaks with). -/
inductive GetOutcome where
  | bytes (d : Bytes)
  | panicked
  deriving DecidableEq

/-- `get_object_impl` (object_access.rs lines 135-174): run the retry loop
over the store's successive responses; unwrap the result (an `Err` result
panics).  Returns the attempts made together with the outcome (`none` if
the loop was still retrying when the fuel ran out). -/
def get_object_impl (resps : Nat → GetResp) (rng0 : ℚ) (factors : Nat → ℚ)
    (fuel : Nat) : Nat × Option GetOutcome :=
  let r := retryRun (fun n => getAttempt (resps n)) rng0 factors fuel
  (r.attemptsMade,
   r.result.map (fun res =>
     match res with
     | .ok d => .bytes d
     | .error _ => .panicked))

/-! ### DELETE (object_access.rs lines 302-353) -/

/-- Externally visible actions of the delete path. -/
inductive DeleteEvent where
  | bulkDeleteRequest (keys : List String)
  | sleepMs (n : Nat)
  deriving DecidableEq

/-- The per-item `errors` field of one `DeleteObjects` response:
`none` models an absent field, `some errs` a present field whose error
list is `errs` (error descriptors as `Nat`). -/
abbrev DeleteResp := Option (List Nat)

/-- `delete_objects_impl` (object_access.rs lines 309-345): builds its log
message by indexing `keys[0]` — a panic (modelled as result `none`) before
any request when `keys` is empty.  Otherwise it issues one bulk-delete
request for the whole (prefixed) batch via `retry` (whose classifier marks
every transport outcome retryable; `resp` is the response of the transport
call that succeeded); if the response's `errors` field is present it sleeps
100ms and reports that a retry is needed, otherwise not.  First component:
the events issued; second: `some retryNeeded`, or `none` on panic. -/
def delete_objects_impl (pfx : String) (keys : List String) (resp : DeleteResp) :
    List DeleteEvent × Option Bool :=
  match keys with
  | [] => ([], none)
  | _ :: _ =>
    match resp with
    | some _errs =>
      ([.bulkDeleteRequest (keys.map (prefixed pfx)), .sleepMs 100], some true)
    | none =>
      ([.bulkDeleteRequest (keys.map (prefixed pfx))], some false)

/-- Result of the `delete_objects` loop. -/
inductive LoopResult (α : Type) where
  | panicked
  | timeout
  | finished (a : α)
  deriving DecidableEq

/-- `delete_objects` (object_access.rs lines 351-353):
`while self.delete_objects_impl(&keys).await {}` — repeat the whole-batch
attempt until one reports that no retry is needed.  `resps n` is the
response to the (n+1)-th attempt; the result counts the attempts made
(`timeout` if the loop was still running after `fuel` iterations). -/
def delete_objects (pfx : String) (keys : List String) (resps : Nat → DeleteResp) :
    Nat → List DeleteEvent × LoopResult Nat
  | 0 => ([], .timeout)
  | fuel + 1 =>
    match delete_objects_impl pfx keys (resps 0) with
    | (evs, none) => (evs, .panicked)
    | (evs, some true) =>
      let r := delete_objects pfx keys (fun n => resps (n + 1)) fuel
      (evs ++ r.1,
       match r.2 with
       | .finished n => .finished (n + 1)
       | x => x)
    | (evs, some false) => (evs, .finished 1)

/-- `delete_object` (object_access.rs lines 302-304): a single-key delete
is a batch of size one. -/
def delete_object (pfx : String) (key : String) (resps : Nat → DeleteResp)
    (fuel : Nat) : List DeleteEvent × LoopResult Nat :=
  delete_objects pfx [key] resps fuel

/-! ### LIST / existence check (object_access.rs lines 224-257, 355-371) -/

/-- The remote bucket, abstracted to the set of (full, already prefixed)
keys it holds, in listing order. -/
abbrev Store := List String

/-- The single page `list_objects(prefix, None)` accumulates for a small
result set (object_access.rs lines 224-257): the stored keys having the
given string as a prefix.  `list_objects` prefixes its argument with the
namespace prefix before sending it (line 230: `prefixed(prefix)`). -/
def listKeys (store : Store) (fullPrefix : String) : List String :=
  store.filter (fun k => fullPrefix.data.isPrefixOf k.data)

/-- `put_object_impl` stores under the prefixed key (object_access.rs
line 272: `key: prefixed(key)`); for existence reasoning only the key set
matters. -/
def storePutKey (pfx : String) (store : Store) (key : String) : Store :=
  if prefixed pfx key ∈ store then store else store ++ [prefixed pfx key]

/-- `object_exists` (object_access.rs lines 355-371): lists with the exact
key as prefix and no delimiter (one page asserted), then linearly scans the
returned entries for one whose key equals the *unprefixed* query key
(line 367: `k == key`, where `k` is the full key the store returned). -/
def object_exists (pfx : String) (store : Store) (key : String) : Bool :=
  let page := listKeys store (prefixed pfx key)
  page.any (fun k => k = key)

/-! ### PUT and the object cache write path (object_access.rs lines 286-300) -/

/-- The process-wide LRU map (`LruCache<String, Arc<Vec<u8>>>`), front =
most recently used. -/
abbrev Lru := List (String × Bytes)

/-- `LruCache::contains` (no recency update). -/
def lruContains (c : Lru) (k : String) : Bool :=
  c.any (fun p => p.1 = k)

/-- `LruCache::put`: remove any existing entry for the key, push the new
pair to the front, evict the least recently used entry if over capacity. -/
def lruPut (cap : Nat) (c : Lru) (k : String) (v : Bytes) : Lru :=
  let c' := (k, v) :: c.filter (fun p => p.1 ≠ k)
  if c'.length > cap then c'.dropLast else c'

/-- Peek the cached bytes for a key (no recency update): a cache-only
read. -/
def lruPeek (c : Lru) (k : String) : Option Bytes :=
  (c.find? (fun p => p.1 = k)).map (fun p => p.2)

/-- Externally visible actions of `put_object`, in order. -/
inductive PutEvent where
  | lockAcquire
  | cacheReplace (k : String) (d : Bytes)
  | lockRelease
  | netPut (k : String) (d : Bytes)
  deriving DecidableEq

/-- `put_object` (object_access.rs lines 286-300): inside the lock, if the
key is currently cached, replace its cached bytes with a copy of `data`;
release the lock; then always perform the network write
(`put_object_impl`). -/
def put_object (cap : Nat) (c : Lru) (k : String) (d : Bytes) :
    Lru × List PutEvent :=
  if lruContains c k then
    (lruPut cap c k d, [.lockAcquire, .cacheReplace k d, .lockRelease, .netPut k d])
  else
    (c, [.lockAcquire, .lockRelease, .netPut k d])

end ObjAccess

namespace SingleFlight

/-! ## Single-flight object cache (object_access.rs lines 176-221)

A small-step interleaving model of `get_object` for `N` concurrent callers
of one key `k` during one cold period.  Each step is one lock-held critical
section (or one suspension returning); the states of the relation are thus
exactly the lock-released points.  Shared state is restricted to the parts
relevant to `k`: the LRU entry for `k`, whether `k` is in the `reading`
registry (with the generation of the registered semaphore), the set of
closed semaphore generations, and the number of backing-store GETs issued.
`v0` stands for the bytes the backing store returns for `k`. -/

open ObjAccess (Bytes)

/-- The control point of one `get_object(k)` caller. -/
inductive TPC where
  | start
  | fetching (g : Nat)
  | waiting (g : Nat)
  | done (v : Bytes)
  deriving DecidableEq

/-- Shared state plus the control points of the `N` tasks. -/
structure SfState (N : Nat) where
  /-- the LRU map's entry for `k` (`c.cache.get(&mykey)`) -/
  cached : Option Bytes
  /-- the reading registry's entry for `k`: generation of the registered
  semaphore, if a fetch is in flight -/
  reading : Option Nat
  /-- next fresh semaphore generation -/
  nextGen : Nat
  /-- generations whose semaphore has been closed -/
  closed : List Nat
  /-- backing-store GETs issued for `k` (`get_object_impl` calls) -/
  fetches : Nat
  /-- control points of the tasks -/
  tasks : Fin N → TPC

/-- One atomic step of some task `i`, translated from the body of
`get_object`'s loop (object_access.rs lines 179-220). -/
inductive Step (v0 : Bytes) {N : Nat} : SfState N → SfState N → Prop
  /-- lines 188-191: the locked lookup finds `k` in the LRU map and
  returns a clone of the cached value. -/
  | hit (s : SfState N) (i : Fin N) (v : Bytes) :
      s.tasks i = .start → s.cached = some v →
      Step v0 s { s with tasks := Function.update s.tasks i (.done v) }
  /-- lines 198-202: `k` absent from the LRU map but present in `reading`:
  capture the in-flight semaphore and become a waiter. -/
  | wait (s : SfState N) (i : Fin N) (g : Nat) :
      s.tasks i = .start → s.cached = none → s.reading = some g →
      Step v0 s { s with tasks := Function.update s.tasks i (.waiting g) }
  /-- lines 193-197: `k` absent from both: insert a fresh zero-permit
  semaphore into `reading` and become the fetcher. -/
  | register (s : SfState N) (i : Fin N) :
      s.tasks i = .start → s.cached = none → s.reading = none →
      Step v0 s { s with
        tasks := Function.update s.tasks i (.fetching s.nextGen)
        reading := some s.nextGen
        nextGen := s.nextGen + 1 }
  /-- lines 206-212: the fetcher's `get_object_impl` call returns `v0`;
  then, in one critical section, close the semaphore, put the value into
  the LRU map, remove `k` from `reading`, and return the value. -/
  | complete (s : SfState N) (i : Fin N) (g : Nat) :
      s.tasks i = .fetching g →
      Step v0 s { s with
        tasks := Function.update s.tasks i (.done v0)
        cached := some v0
        reading := none
        closed := g :: s.closed
        fetches := s.fetches + 1 }
  /-- lines 214-218: a waiter's `acquire()` returns (with an error) once
  its captured semaphore is closed; it loops back to the lookup. -/
  | wake (s : SfState N) (i : Fin N) (g : Nat) :
      s.tasks i = .waiting g → g ∈ s.closed →
      Step v0 s { s with tasks := Function.update s.tasks i .start }

/-- Reachability under interleaved task steps. -/
def Reach (v0 : Bytes) {N : Nat} (s s' : SfState N) : Prop :=
  Relation.ReflTransGen (Step v0) s s'

/-- The cold initial state: `k` in neither the LRU map nor `reading`, no
fetch issued, all `N` callers about to do their first lookup. -/
def init (N : Nat) : SfState N :=
  { cached := none, reading := none, nextGen := 0, closed := [], fetches := 0
    tasks := fun _ => .start }

/-- The inductive invariant of one cold period: either no fetch has been
registered (all tasks at their first lookup), or exactly one fetch is in
flight (registered in `reading`, one fetcher, everyone else looking up or
waiting on its semaphore), or the fetch completed (value cached, `reading`
empty, every finished task holding the fetched bytes). -/
def Inv (v0 : Bytes) {N : Nat} (s : SfState N) : Prop :=
  (s.cached = none ∧ s.reading = none ∧ s.fetches = 0 ∧ s.closed = [] ∧
    ∀ i, s.tasks i = .start) ∨
  (∃ g, s.cached = none ∧ s.reading = some g ∧ s.fetches = 0 ∧ s.closed = [] ∧
    (∃ j, s.tasks j = .fetching g ∧ ∀ i, s.tasks i = .fetching g → i = j) ∧
    (∀ i, s.tasks i = .start ∨ s.tasks i = .fetching g ∨ s.tasks i = .waiting g)) ∨
  (s.cached = some v0 ∧ s.reading = none ∧ s.fetches = 1 ∧ s.closed ≠ [] ∧
    (∀ i, s.tasks i = .start ∨ (∃ g, s.tasks i = .waiting g) ∨ s.tasks i = .done v0))

/-! ### Event order of the fetcher's completion section (claim C8)

The fetcher's completion critical section (object_access.rs lines
206-212) in program order: reacquire the lock, close the semaphore
(`mysem.close()`), insert into the LRU map (`c.cache.put(...)`), remove
`k` from `reading`, release the lock. -/

/-- One micro-action of the fetcher completion section. -/
inductive SfEvent where
  | lockAcquire
  | semClose
  | cachePut
  | readingRemove
  | lockRelease
  deriving DecidableEq

/-- The completion section's actions in the source's program order
(object_access.rs lines 207-210). -/
def fetcherCompletionEvents : List SfEvent :=
  [.lockAcquire, .semClose, .cachePut, .readingRemove, .lockRelease]

end SingleFlight

/-! ## Concrete inputs used by the witness theorems -/

namespace ZfsIndex

/-- Concrete witness state for the gating theorem: histogram start 5. -/
def histW : AtimeHistogramPhys :=
  { counts := fun _ => 0, bytes := fun _ => 0, start := 5 }

/-- Concrete witness index. -/
def idxW : ZettaCacheIndex := { atime_histogram := histW, log := [] }

/-- Witness entry with atime 7 ≥ start 5. -/
def entHot : IndexEntry :=
  { key := { guid := 1, block := 2 }, value := { location := 3, size := 4, atime := 7 } }

/-- Witness entry with atime 2 < start 5. -/
def entCold : IndexEntry :=
  { key := { guid := 1, block := 2 }, value := { location := 3, size := 4, atime := 2 } }

end ZfsIndex

namespace SingleFlight

/-- Two-caller scenario, after task 0 registered as the fetcher. -/
def sfW1 : SfState 2 :=
  { cached := none, reading := some 0, nextGen := 1, closed := [], fetches := 0
    tasks := Function.update (fun _ => TPC.start) 0 (TPC.fetching 0) }

/-- After task 0 completed the fetch of `[7]`. -/
def sfW2 : SfState 2 :=
  { cached := some [7], reading := none, nextGen := 1, closed := [0], fetches := 1
    tasks := Function.update sfW1.tasks 0 (TPC.done [7]) }

/-- All-done state of the two-caller scenario: task 1 then hit the cache. -/
def sfW : SfState 2 :=
  { sfW2 with tasks := Function.update sfW2.tasks 1 (TPC.done [7]) }

end SingleFlight

/-! ## Theorems -/

namespace ZfsIndex

/-- C1: for every cache index state and entry `e`, `append_or_evict e` with
`e.value.atime ≥ histogram.get_start()` produces exactly the state of
`append e` (hence the same histogram counts and log contents); with
`e.value.atime < get_start()` it leaves the state unchanged; and in every
case it invokes no backing-store eviction routine. -/
theorem append_or_evict_gating (s : ZettaCacheIndex) (e : IndexEntry) :
    (e.value.atime ≥ s.atime_histogram.get_start →
        s.append_or_evict e = (s.append e, [])) ∧
    (e.value.atime < s.atime_histogram.get_start →
        s.append_or_evict e = (s, [])) ∧
    (s.append_or_evict e).2 = [] := by
  refine ⟨fun h => ?_, fun h => ?_, ?_⟩
  · simp [ZettaCacheIndex.append_or_evict, h]
  · simp [ZettaCacheIndex.append_or_evict, Nat.not_le.mpr h]
  · by_cases h : e.value.atime ≥ s.atime_histogram.get_start <;>
      simp [ZettaCacheIndex.append_or_evict, h]

/-- Witness for C1 at concrete inputs. -/
theorem append_or_evict_gating_witness :
    idxW.append_or_evict entHot = (idxW.append entHot, []) ∧
    idxW.append_or_evict entCold = (idxW, []) :=
  ⟨(append_or_evict_gating idxW entHot).1 (by decide),
   (append_or_evict_gating idxW entCold).2.1 (by decide)⟩

/-- C2: for every cache index reached from any starting state by any
sequence of `append` / `append_or_evict` / `set_histogram_start` calls,
opening from the descriptor returned by `flush` yields a state equal to the
pre-flush in-memory state (hence all subsequent observable behaviour — log
lookups and histogram `get_start` — is indistinguishable), the flushed
snapshot round-trips through `open`/`flush` without loss, and `flush`
leaves the in-memory state unchanged. -/
theorem flush_open_round_trip (s0 : ZettaCacheIndex) (ops : List IndexOp) :
    ZettaCacheIndex.open_ ((applyOps s0 ops).flush).1 = applyOps s0 ops ∧
    ((applyOps s0 ops).flush).2 = applyOps s0 ops ∧
    (∀ k, (ZettaCacheIndex.open_ ((applyOps s0 ops).flush).1).log.lookup k =
        (applyOps s0 ops).log.lookup k) ∧
    (ZettaCacheIndex.open_ ((applyOps s0 ops).flush).1).atime_histogram.get_start =
        (applyOps s0 ops).atime_histogram.get_start :=
  ⟨rfl, rfl, fun _ => rfl, rfl⟩

end ZfsIndex


namespace ObjAccess

/-- One-step unfolding of the `delete_objects` loop at positive fuel. -/
theorem delete_objects_succ (pfx : String) (keys : List String)
    (resps : Nat → DeleteResp) (fuel : Nat) :
    delete_objects pfx keys resps (fuel + 1) =
      match delete_objects_impl pfx keys (resps 0) with
      | (evs, none) => (evs, .panicked)
      | (evs, some true) =>
        let r := delete_objects pfx keys (fun n => resps (n + 1)) fuel
        (evs ++ r.1,
         match r.2 with
         | .finished n => .finished (n + 1)
         | x => x)
      | (evs, some false) => (evs, .finished 1) := rfl

/-- C10: `delete_objects_impl` with an empty key list panics (it indexes
`keys[0]` while building its log message) before issuing any request, and
so does `delete_objects` on an empty batch; every call with a non-empty
key list gets past that indexing. -/
theorem delete_objects_empty_keys_panics (pfx : String) (resp : DeleteResp)
    (resps : Nat → DeleteResp) :
    delete_objects_impl pfx [] resp = ([], none) ∧
    (∀ fuel, delete_objects pfx [] resps (fuel + 1) = ([], .panicked)) ∧
    (∀ keys : List String, keys ≠ [] →
      ((delete_objects_impl pfx keys resp).2).isSome = true) := by
  refine ⟨rfl, fun fuel => rfl, fun keys hk => ?_⟩
  match keys, hk with
  | k :: ks, _ => cases resp <;> rfl

/-- Witness for C10 at concrete inputs. -/
theorem delete_objects_empty_keys_panics_witness :
    delete_objects_impl "" ([] : List String) none = ([], none) ∧
    ((delete_objects_impl "" ["a"] none).2).isSome = true :=
  ⟨(delete_objects_empty_keys_panics "" none (fun _ => none)).1,
   (delete_objects_empty_keys_panics "" none (fun _ => none)).2.2 ["a"] (by decide)⟩

/-- C3 counterexample: a response whose `errors` field is present but
empty (`some []`) reports zero per-item errors, yet the whole batch is
retried — the first attempt's response carries `errors = some []` and
`delete_objects` still makes a second bulk-delete call instead of
returning after the first. -/
theorem delete_objects_empty_errors_cex :
    (delete_objects "" ["a"] (fun n => if n = 0 then some [] else none) 2).2 =
      .finished 2 ∧
    (delete_objects "" ["a"] (fun n => if n = 0 then some [] else none) 2).1 =
      [.bulkDeleteRequest ["a"], .sleepMs 100, .bulkDeleteRequest ["a"]] ∧
    (delete_objects "" ["a"] (fun n => if n = 0 then some [] else none) 2).2 ≠
      .finished 1 := by
  refine ⟨rfl, rfl, ?_⟩
  decide

/-- C3 (amended): one bulk-delete request per attempt for the whole
prefixed batch; the batch is retried after a 100ms sleep whenever the
response's per-item `errors` field is *present* (even when the error list
is empty), and `delete_objects` returns exactly when a response's `errors`
field is absent — so with a store whose first `K` responses carry a present
`errors` field and whose next response does not, exactly `K+1` bulk-delete
calls are made; while every response carries a present `errors` field the
loop never returns; and `delete_object` on a single key is `delete_objects`
on a batch of size one. -/
theorem delete_objects_convergence (pfx : String) (keys : List String)
    (resps : Nat → DeleteResp) (K : Nat)
    (hkeys : keys ≠ [])
    (hfail : ∀ n, n < K → (resps n).isSome = true)
    (hok : resps K = none) :
    delete_objects pfx keys resps (K + 1) =
      ((List.replicate K
          [DeleteEvent.bulkDeleteRequest (keys.map (prefixed pfx)), .sleepMs 100]).flatten
        ++ [DeleteEvent.bulkDeleteRequest (keys.map (prefixed pfx))],
       .finished (K + 1)) ∧
    (∀ rs : Nat → DeleteResp, ∀ fuel, (∀ n, n < fuel → (rs n).isSome = true) →
      (delete_objects pfx keys rs fuel).2 = .timeout) ∧
    (∀ key rs fuel, delete_object pfx key rs fuel = delete_objects pfx [key] rs fuel) := by
  obtain ⟨k0, ks, rfl⟩ := List.exists_cons_of_ne_nil hkeys
  have himpl : ∀ errs : List Nat,
      delete_objects_impl pfx (k0 :: ks) (some errs) =
        ([.bulkDeleteRequest ((k0 :: ks).map (prefixed pfx)), .sleepMs 100], some true) :=
    fun _ => rfl
  have himplOk : delete_objects_impl pfx (k0 :: ks) none =
      ([.bulkDeleteRequest ((k0 :: ks).map (prefixed pfx))], some false) := rfl
  refine ⟨?_, ?_, fun key rs fuel => rfl⟩
  · induction K generalizing resps with
    | zero =>
      rw [delete_objects_succ, hok, himplOk]
      simp
    | succ K ih =>
      obtain ⟨errs, h0⟩ := Option.isSome_iff_exists.mp (hfail 0 (Nat.succ_pos K))
      have ih' := ih (fun n => resps (n + 1))
        (fun n hn => hfail (n + 1) (Nat.succ_lt_succ hn)) hok
      rw [delete_objects_succ, h0, himpl]
      simp only [ih', List.replicate_succ, List.flatten_cons, List.append_assoc]
  · intro rs fuel
    induction fuel generalizing rs with
    | zero => intro _; rfl
    | succ fuel ih =>
      intro hall
      obtain ⟨errs, h0⟩ := Option.isSome_iff_exists.mp (hall 0 (Nat.succ_pos fuel))
      have hr := ih (fun n => rs (n + 1)) (fun n hn => hall (n + 1) (Nat.succ_lt_succ hn))
      rw [delete_objects_succ, h0, himpl]
      simp only
      rw [hr]

/-- Witness for C3's amended theorem: two failing responses (one of them
with an empty-but-present error list), then an absent `errors` field. -/
theorem delete_objects_convergence_witness :
    delete_objects "p/" ["a", "b"]
        (fun n => if n < 2 then some [7] else none) 3 =
      ([.bulkDeleteRequest ["p/a", "p/b"], .sleepMs 100,
        .bulkDeleteRequest ["p/a", "p/b"], .sleepMs 100,
        .bulkDeleteRequest ["p/a", "p/b"]], .finished 3) := by
  have h := (delete_objects_convergence "p/" ["a", "b"]
      (fun n => if n < 2 then some [7] else none) 2
      (by decide) (fun n hn => by simp [hn]) (by rfl)).1
  simpa using h

end ObjAccess


namespace ObjAccess

/-- C5: evaluation at the failing configuration.  With namespace prefix
`"p/"` (a set `AWS_PREFIX`), storing keys `x/y` and `x/yz` through the
client's prefixing puts `p/x/y` and `p/x/yz` in the bucket; the existence
check's listing page returns both full keys, but the linear scan compares
them against the *unprefixed* query key, so `object_exists "x/y"` returns
`false` for the stored key.  With an empty prefix the intended behaviour
holds: `exists "x/y"` is true and `exists "x/y/"` false even though the
prefix listing returns both stored keys. -/
theorem object_exists_prefix_divergence :
    storePutKey "p/" (storePutKey "p/" [] "x/y") "x/yz" = ["p/x/y", "p/x/yz"] ∧
    listKeys ["p/x/y", "p/x/yz"] (prefixed "p/" "x/y") = ["p/x/y", "p/x/yz"] ∧
    object_exists "p/" ["p/x/y", "p/x/yz"] "x/y" = false ∧
    listKeys ["x/y", "x/yz"] (prefixed "" "x/y") = ["x/y", "x/yz"] ∧
    object_exists "" ["x/y", "x/yz"] "x/y" = true ∧
    object_exists "" ["x/y", "x/yz"] "x/y/" = false := by
  decide

/-- Filtering out a key that is present strictly shrinks the LRU list. -/
theorem length_filter_ne_lt (c : Lru) (k : String) (h : lruContains c k = true) :
    (c.filter (fun p => p.1 ≠ k)).length < c.length := by
  induction c with
  | nil => simp [lruContains] at h
  | cons hd tl ih =>
    by_cases hk : hd.1 = k
    · rw [@List.filter_cons_of_neg (String × Bytes) (fun p => decide (p.1 ≠ k)) hd tl
        (fun hdec => of_decide_eq_true hdec hk)]
      have hle := List.length_filter_le (fun p : String × Bytes => decide (p.1 ≠ k)) tl
      simp only [List.length_cons]
      omega
    · have h' : lruContains tl k = true := by
        simpa [lruContains, List.any_cons, hk] using h
      rw [@List.filter_cons_of_pos (String × Bytes) (fun p => decide (p.1 ≠ k)) hd tl
        (decide_eq_true hk)]
      simp only [List.length_cons]
      exact Nat.succ_lt_succ (ih h')

/-- A lookup for a key other than `k` is unaffected by filtering out
`k`'s entries. -/
theorem find_in_filter_ne (c : Lru) (k k' : String) (hne : k' ≠ k) :
    (c.filter (fun p => p.1 ≠ k)).find? (fun p => p.1 = k') =
      c.find? (fun p => p.1 = k') := by
  induction c with
  | nil => rfl
  | cons hd tl ih =>
    by_cases hk : hd.1 = k
    · rw [@List.filter_cons_of_neg (String × Bytes) (fun p => decide (p.1 ≠ k)) hd tl
          (fun hdec => of_decide_eq_true hdec hk),
        ih,
        List.find?_cons_of_neg tl
          (show ¬((fun p : String × Bytes => decide (p.1 = k')) hd = true) from
            fun hdec => hne ((of_decide_eq_true hdec).symm.trans hk))]
    · by_cases hk' : hd.1 = k'
      · rw [@List.filter_cons_of_pos (String × Bytes) (fun p => decide (p.1 ≠ k)) hd tl
            (decide_eq_true hk),
          List.find?_cons_of_pos (tl.filter (fun p => p.1 ≠ k))
            (show (fun p : String × Bytes => decide (p.1 = k')) hd = true from
              decide_eq_true hk'),
          List.find?_cons_of_pos tl
            (show (fun p : String × Bytes => decide (p.1 = k')) hd = true from
              decide_eq_true hk')]
      · rw [@List.filter_cons_of_pos (String × Bytes) (fun p => decide (p.1 ≠ k)) hd tl
            (decide_eq_true hk),
          List.find?_cons_of_neg (tl.filter (fun p => p.1 ≠ k))
            (show ¬((fun p : String × Bytes => decide (p.1 = k')) hd = true) from
              fun hdec => hk' (of_decide_eq_true hdec)),
          List.find?_cons_of_neg tl
            (show ¬((fun p : String × Bytes => decide (p.1 = k')) hd = true) from
              fun hdec => hk' (of_decide_eq_true hdec)),
          ih]

/-- C7: for every capacity, cache state within capacity, key `k` and bytes
`d`, `put_object k d` replaces the cached bytes for `k` if and only if `k`
is currently present (an absent key is not inserted and the map is left
untouched), a cache-only read immediately afterwards returns `d` while the
other keys' cached bytes are unchanged, and the event trace holds the lock
only around the map mutation and always ends with the network write after
the lock is released. -/
theorem put_object_write_through (cap : Nat) (c : Lru) (k : String) (d : Bytes)
    (hcap : c.length ≤ cap) :
    (lruContains c k = true →
      lruPeek (put_object cap c k d).1 k = some d ∧
      (∀ k', k' ≠ k → lruPeek (put_object cap c k d).1 k' = lruPeek c k')) ∧
    (lruContains c k = false → (put_object cap c k d).1 = c) ∧
    (∃ mid, (put_object cap c k d).2 =
        PutEvent.lockAcquire :: (mid ++ [PutEvent.lockRelease, PutEvent.netPut k d]) ∧
      ∀ e ∈ mid, e = PutEvent.cacheReplace k d) := by
  refine ⟨fun hc => ?_, fun hc => ?_, ?_⟩
  · have hlt := length_filter_ne_lt c k hc
    have hput : lruPut cap c k d = (k, d) :: c.filter (fun p => p.1 ≠ k) := by
      unfold lruPut
      rw [if_neg]
      simp only [List.length_cons]
      omega
    have h1 : (put_object cap c k d).1 = lruPut cap c k d := by
      simp [put_object, hc]
    constructor
    · rw [h1, hput]
      simp only [lruPeek]
      rw [List.find?_cons_of_pos (c.filter (fun p => p.1 ≠ k))
        (show (fun p : String × Bytes => decide (p.1 = k)) (k, d) = true from
          decide_eq_true rfl)]
      rfl
    · intro k' hk'
      rw [h1, hput]
      simp only [lruPeek]
      rw [List.find?_cons_of_neg (c.filter (fun p => p.1 ≠ k))
          (show ¬((fun p : String × Bytes => decide (p.1 = k')) (k, d) = true) from
            fun hdec => hk' ((of_decide_eq_true hdec).symm)),
        find_in_filter_ne c k k' hk']
  · simp [put_object, hc]
  · by_cases hc : lruContains c k = true
    · exact ⟨[.cacheReplace k d], by simp [put_object, hc], by simp⟩
    · have hc' : lruContains c k = false := by simpa using hc
      exact ⟨[], by simp [put_object, hc'], by simp⟩

/-- Witness for C7 at a concrete cache: `k` cached, another key `j`
present. -/
theorem put_object_write_through_witness :
    lruPeek (put_object 2 [("k", [1]), ("j", [2])] "k" [9]).1 "k" = some [9] ∧
    lruPeek (put_object 2 [("k", [1]), ("j", [2])] "k" [9]).1 "j" = some [2] :=
  have h := (put_object_write_through 2 [("k", [1]), ("j", [2])] "k" [9]
    (by decide)).1 (by decide)
  ⟨h.1, by rw [h.2 "j" (by decide)]; rfl⟩

end ObjAccess

namespace ObjAccess

/-- One-step unfolding of the retry loop at positive fuel. -/
theorem retryRun_succ {E O : Type} (attempts : Nat → Bool × Except E O)
    (delay : ℚ) (factors : Nat → ℚ) (fuel : Nat) :
    retryRun attempts delay factors (fuel + 1) =
      if isRetryableFailure (attempts 0) then
        let r := retryRun (fun n => attempts (n + 1)) (delay * factors 0)
          (fun n => factors (n + 1)) fuel
        ⟨r.attemptsMade + 1, delay :: r.sleeps, r.result⟩
      else
        ⟨1, [], some (attempts 0).2⟩ := rfl

/-- The retry loop absorbs any prefix of retryable GET failures: with `K`
non-"not found" errors followed by a success, it makes `K+1` attempts and
ends with the successful response. -/
theorem retryRun_get_absorbs (K : Nat) :
    ∀ (resps : Nat → GetResp) (rng0 : ℚ) (factors : Nat → ℚ) (d : Bytes),
    (∀ n, n < K → ∃ cn, resps n = .otherErr cn) → resps K = .ok d →
    (retryRun (fun n => getAttempt (resps n)) rng0 factors (K + 1)).attemptsMade = K + 1 ∧
    (retryRun (fun n => getAttempt (resps n)) rng0 factors (K + 1)).result =
      some (.ok d) := by
  induction K with
  | zero =>
    intro resps rng0 factors d _ hok
    constructor <;> simp [retryRun, hok, isRetryableFailure, getAttempt]
  | succ K ih =>
    intro resps rng0 factors d hfail hok
    obtain ⟨c0, h0⟩ := hfail 0 (Nat.succ_pos K)
    have ihx := ih (fun n => resps (n + 1)) (rng0 * factors 0) (fun n => factors (n + 1)) d
      (fun n hn => hfail (n + 1) (Nat.succ_lt_succ hn)) hok
    have hguard : isRetryableFailure ((fun n => getAttempt (resps n)) 0) = true := by
      simp [h0, getAttempt, isRetryableFailure]
    constructor
    · rw [retryRun_succ, if_pos hguard]
      simpa using ihx.1
    · rw [retryRun_succ, if_pos hguard]
      simpa using ihx.2

/-- C4 counterexample: a store that answers "not found" makes
`get_object_impl` panic (the retry result is unwrapped), after exactly one
attempt — the outcome is a crash of the calling path, not a normal miss
outcome. -/
theorem get_not_found_panics_cex :
    get_object_impl (fun _ => .noSuchKey) (1 / 100 : ℚ) (fun _ => 2) 5 =
      (1, some .panicked) := rfl

/-- C4 (amended): a GET answered with the store's "not found" signal is
classified non-retryable — the retry loop makes exactly one attempt and
performs no sleep — but it surfaces as a process panic (`get_object_impl`
unwraps the `Err` that `retry` breaks with), not as a normal miss outcome;
every other GET failure is classified retryable and absorbed by the retry
loop. -/
theorem get_not_found_classification (resps : Nat → GetResp) (rng0 : ℚ)
    (factors : Nat → ℚ) :
    (isRetryableFailure (getAttempt .noSuchKey) = false ∧
      ∀ c, isRetryableFailure (getAttempt (.otherErr c)) = true) ∧
    (resps 0 = .noSuchKey →
      ∀ fuel, get_object_impl resps rng0 factors (fuel + 1) = (1, some .panicked) ∧
        (retryRun (fun n => getAttempt (resps n)) rng0 factors (fuel + 1)).sleeps = []) ∧
    (∀ K d, (∀ n, n < K → ∃ cn, resps n = .otherErr cn) → resps K = .ok d →
      get_object_impl resps rng0 factors (K + 1) = (K + 1, some (.bytes d))) := by
  refine ⟨⟨rfl, fun c => rfl⟩, fun h fuel => ?_, fun K d hf hok => ?_⟩
  · constructor <;> simp [get_object_impl, retryRun, h, isRetryableFailure, getAttempt]
  · have hx := retryRun_get_absorbs K resps rng0 factors d hf hok
    simp [get_object_impl, hx.1, hx.2]

/-- Witness for C4's amended theorem: one retryable failure absorbed, then
success; and a "not found" store panicking after one attempt. -/
theorem get_not_found_classification_witness :
    get_object_impl (fun n => if n = 0 then .otherErr 3 else .ok [5])
        (1 / 100 : ℚ) (fun _ => 2) 2 = (2, some (.bytes [5])) ∧
    get_object_impl (fun _ => .noSuchKey) (1 / 100 : ℚ) (fun _ => 2) 4 =
      (1, some .panicked) :=
  ⟨(get_not_found_classification (fun n => if n = 0 then .otherErr 3 else .ok [5])
      (1 / 100) (fun _ => 2)).2.2 1 [5]
      (fun n hn => ⟨3, by rw [Nat.lt_one_iff.mp hn]; rfl⟩) rfl,
   ((get_not_found_classification (fun _ => .noSuchKey)
      (1 / 100) (fun _ => 2)).2.1 rfl 3).1⟩

end ObjAccess

namespace ObjAccess

/-- The sleeps list of a retry run is empty or starts with the current
delay. -/
theorem retryRun_sleeps_head {E O : Type} (fuel : Nat)
    (attempts : Nat → Bool × Except E O) (delay : ℚ) (factors : Nat → ℚ) :
    (retryRun attempts delay factors fuel).sleeps = [] ∨
    (retryRun attempts delay factors fuel).sleeps.head? = some delay := by
  cases fuel with
  | zero => exact Or.inl rfl
  | succ fuel =>
    by_cases hg : isRetryableFailure (attempts 0) = true
    · exact Or.inr (by rw [retryRun_succ, if_pos hg]; rfl)
    · exact Or.inl (by rw [retryRun_succ, if_neg hg])

/-- Each successive sleep is the previous one multiplied by the next
random factor, hence by a value in `[3/2, 5/2)` when all factors lie in
that interval. -/
theorem retryRun_sleeps_chain {E O : Type} :
    ∀ (fuel : Nat) (attempts : Nat → Bool × Except E O) (delay : ℚ)
      (factors : Nat → ℚ),
    (∀ n, 3 / 2 ≤ factors n ∧ factors n < 5 / 2) →
    List.Chain' (fun a b => ∃ f, 3 / 2 ≤ f ∧ f < 5 / 2 ∧ b = a * f)
      (retryRun attempts delay factors fuel).sleeps := by
  intro fuel
  induction fuel with
  | zero => intro attempts delay factors _; simp [retryRun]
  | succ fuel ih =>
    intro attempts delay factors hf
    by_cases hg : isRetryableFailure (attempts 0) = true
    · rw [retryRun_succ, if_pos hg]
      refine List.chain'_cons'.mpr ⟨fun y hy => ?_,
        ih (fun n => attempts (n + 1)) (delay * factors 0)
          (fun n => factors (n + 1)) (fun n => hf (n + 1))⟩
      rcases retryRun_sleeps_head fuel (fun n => attempts (n + 1))
          (delay * factors 0) (fun n => factors (n + 1)) with hnil | hhead
      · rw [hnil] at hy; cases hy
      · rw [hhead] at hy
        cases hy
        exact ⟨factors 0, (hf 0).1, (hf 0).2, rfl⟩
    · rw [retryRun_succ, if_neg hg]
      exact List.chain'_nil

/-- While every attempt keeps failing retryably, the loop keeps going:
it makes exactly `fuel` attempts, sleeps `fuel` times and produces no
result, for every fuel. -/
theorem retryRun_all_fail {E O : Type} :
    ∀ (fuel : Nat) (attempts : Nat → Bool × Except E O) (delay : ℚ)
      (factors : Nat → ℚ),
    (∀ n, isRetryableFailure (attempts n) = true) →
    (retryRun attempts delay factors fuel).attemptsMade = fuel ∧
    (retryRun attempts delay factors fuel).result = none ∧
    (retryRun attempts delay factors fuel).sleeps.length = fuel := by
  intro fuel
  induction fuel with
  | zero => intro attempts delay factors _; exact ⟨rfl, rfl, rfl⟩
  | succ fuel ih =>
    intro attempts delay factors hall
    have ihx := ih (fun n => attempts (n + 1)) (delay * factors 0)
      (fun n => factors (n + 1)) (fun n => hall (n + 1))
    refine ⟨?_, ?_, ?_⟩ <;> rw [retryRun_succ, if_pos (hall 0)]
    · simpa using ihx.1
    · simpa using ihx.2.1
    · simpa using ihx.2.2

/-- Each delay stays at least 1ms, so `fuel` retryable failures force a
total slept delay of at least `fuel` milliseconds: the total delay is
unbounded as well. -/
theorem retryRun_sum_lb {E O : Type} :
    ∀ (fuel : Nat) (attempts : Nat → Bool × Except E O) (delay : ℚ)
      (factors : Nat → ℚ),
    (∀ n, isRetryableFailure (attempts n) = true) →
    (∀ n, 3 / 2 ≤ factors n) → 1 / 1000 ≤ delay →
    (fuel : ℚ) * (1 / 1000) ≤ (retryRun attempts delay factors fuel).sleeps.sum := by
  intro fuel
  induction fuel with
  | zero => intro attempts delay factors _ _ _; simp [retryRun]
  | succ fuel ih =>
    intro attempts delay factors hall hfac hdel
    have hd' : 1 / 1000 ≤ delay * factors 0 := by
      have h1 : delay * 1 ≤ delay * factors 0 := by
        have : (0:ℚ) ≤ delay := by linarith
        have h2 : (1:ℚ) ≤ factors 0 := by linarith [hfac 0]
        exact mul_le_mul_of_nonneg_left h2 this
      linarith
    have ihx := ih (fun n => attempts (n + 1)) (delay * factors 0)
      (fun n => factors (n + 1)) (fun n => hall (n + 1)) (fun n => hfac (n + 1)) hd'
    rw [retryRun_succ, if_pos (hall 0)]
    simp only [List.sum_cons]
    push_cast
    linarith

/-- C6: with the initial random delay in `[0.001, 0.2)` seconds and every
random factor in `[1.5, 2.5)` — the intervals `gen_range` draws from — the
first sleep delay is that initial value (so it lies in `[1ms, 200ms)`),
every successive sleep equals the previous one multiplied by a factor in
`[1.5, 2.5)`, the loop has no upper bound on attempt count or total slept
delay (any number of consecutive retryable failures yields that many
attempts and at least that many milliseconds slept, with no result yet),
and on a non-retryable first outcome — success included — it returns
immediately without sleeping. -/
theorem retry_backoff_bounds {E O : Type} (attempts : Nat → Bool × Except E O)
    (rng0 : ℚ) (factors : Nat → ℚ)
    (h0l : 1 / 1000 ≤ rng0) (h0r : rng0 < 1 / 5)
    (hf : ∀ n, 3 / 2 ≤ factors n ∧ factors n < 5 / 2) :
    ((∀ fuel, (retryRun attempts rng0 factors fuel).sleeps = [] ∨
        (retryRun attempts rng0 factors fuel).sleeps.head? = some rng0) ∧
      1 / 1000 ≤ rng0 ∧ rng0 < 1 / 5) ∧
    (∀ fuel, List.Chain' (fun a b => ∃ f, 3 / 2 ≤ f ∧ f < 5 / 2 ∧ b = a * f)
      (retryRun attempts rng0 factors fuel).sleeps) ∧
    (∀ fuel, (∀ n, isRetryableFailure (attempts n) = true) →
      (retryRun attempts rng0 factors fuel).attemptsMade = fuel ∧
      (retryRun attempts rng0 factors fuel).result = none ∧
      (fuel : ℚ) * (1 / 1000) ≤ (retryRun attempts rng0 factors fuel).sleeps.sum) ∧
    (∀ fuel, isRetryableFailure (attempts 0) = false →
      retryRun attempts rng0 factors (fuel + 1) = ⟨1, [], some (attempts 0).2⟩) := by
  refine ⟨⟨fun fuel => retryRun_sleeps_head fuel attempts rng0 factors, h0l, h0r⟩,
    fun fuel => retryRun_sleeps_chain fuel attempts rng0 factors hf,
    fun fuel hall => ⟨(retryRun_all_fail fuel attempts rng0 factors hall).1,
      (retryRun_all_fail fuel attempts rng0 factors hall).2.1,
      retryRun_sum_lb fuel attempts rng0 factors hall (fun n => (hf n).1) h0l⟩,
    fun fuel hg => ?_⟩
  rw [retryRun_succ, if_neg (by rw [hg]; exact Bool.false_ne_true)]

/-- Witness for C6: a store that always fails retryably, initial delay
1/100 s, constant factor 2; after fuel 3 the loop has made 3 attempts,
slept 3 delays totalling at least 3ms, and produced no result. -/
theorem retry_backoff_bounds_witness :
    (retryRun (fun _ => ((true, Except.error 0) : Bool × Except Nat Bytes))
        (1 / 100) (fun _ => 2) 3).attemptsMade = 3 ∧
    (retryRun (fun _ => ((true, Except.error 0) : Bool × Except Nat Bytes))
        (1 / 100) (fun _ => 2) 3).result = none ∧
    ((3 : Nat) : ℚ) * (1 / 1000) ≤
      (retryRun (fun _ => ((true, Except.error 0) : Bool × Except Nat Bytes))
        (1 / 100) (fun _ => 2) 3).sleeps.sum :=
  (retry_backoff_bounds (fun _ => ((true, Except.error 0) : Bool × Except Nat Bytes))
    (1 / 100) (fun _ => 2) (by norm_num) (by norm_num)
    (fun n => by norm_num)).2.2.1 3 (fun n => rfl)

end ObjAccess

namespace SingleFlight

open ObjAccess (Bytes)

/-- The cold initial state satisfies the invariant. -/
theorem inv_init (v0 : Bytes) (N : Nat) : Inv v0 (init N) :=
  Or.inl ⟨rfl, rfl, rfl, rfl, fun _ => rfl⟩

/-- Every step of the protocol preserves the invariant. -/
theorem inv_step {N : Nat} (v0 : Bytes) (s s' : SfState N)
    (hs : Inv v0 s) (hstep : Step v0 s s') : Inv v0 s' := by
  cases hstep with
  | hit i v hti hc =>
    rcases hs with ⟨hc0, _⟩ | ⟨g0, hc0, _⟩ | ⟨hc0, hrd0, hfe, hcl, htasks⟩
    · rw [hc0] at hc; exact Option.noConfusion hc
    · rw [hc0] at hc; exact Option.noConfusion hc
    · rw [hc0] at hc
      injection hc with hv
      refine Or.inr (Or.inr ⟨hc0, hrd0, hfe, hcl, fun m => ?_⟩)
      show Function.update s.tasks i (.done v) m = .start ∨
        (∃ g, Function.update s.tasks i (.done v) m = .waiting g) ∨
        Function.update s.tasks i (.done v) m = .done v0
      by_cases hmi : m = i
      · subst hmi
        rw [Function.update_same, ← hv]
        exact Or.inr (Or.inr rfl)
      · rw [Function.update_noteq hmi]
        exact htasks m
  | wait i g hti hc hrd =>
    rcases hs with ⟨hc0, hrd0, _⟩ |
      ⟨g0, hc0, hrd0, hfe, hcl, ⟨j, hj, hjuniq⟩, htasks⟩ | ⟨hc0, hrd0, _⟩
    · rw [hrd0] at hrd; exact Option.noConfusion hrd
    · rw [hrd0] at hrd
      injection hrd with hg
      subst hg
      have hij : i ≠ j := fun he => by
        rw [he, hj] at hti; exact TPC.noConfusion hti
      refine Or.inr (Or.inl ⟨g0, hc0, hrd0, hfe, hcl, ⟨j, ?_, ?_⟩, fun m => ?_⟩)
      · show Function.update s.tasks i (.waiting g0) j = .fetching g0
        rw [Function.update_noteq (Ne.symm hij)]
        exact hj
      · intro m hm
        have hm' : Function.update s.tasks i (TPC.waiting g0) m = TPC.fetching g0 := hm
        by_cases hmi : m = i
        · subst hmi
          rw [Function.update_same] at hm'
          exact TPC.noConfusion hm'
        · rw [Function.update_noteq hmi] at hm'
          exact hjuniq m hm'
      · show Function.update s.tasks i (.waiting g0) m = .start ∨
          Function.update s.tasks i (.waiting g0) m = .fetching g0 ∨
          Function.update s.tasks i (.waiting g0) m = .waiting g0
        by_cases hmi : m = i
        · subst hmi
          rw [Function.update_same]
          exact Or.inr (Or.inr rfl)
        · rw [Function.update_noteq hmi]
          exact htasks m
    · rw [hrd0] at hrd; exact Option.noConfusion hrd
  | register i hti hc hrd =>
    rcases hs with ⟨hc0, hrd0, hfe, hcl, htasks⟩ | ⟨g0, hc0, hrd0, _⟩ | ⟨hc0, hrd0, _⟩
    · refine Or.inr (Or.inl ⟨s.nextGen, hc0, rfl, hfe, hcl, ⟨i, ?_, ?_⟩, fun m => ?_⟩)
      · show Function.update s.tasks i (.fetching s.nextGen) i = .fetching s.nextGen
        rw [Function.update_same]
      · intro m hm
        have hm' : Function.update s.tasks i (TPC.fetching s.nextGen) m =
            TPC.fetching s.nextGen := hm
        by_cases hmi : m = i
        · exact hmi
        · rw [Function.update_noteq hmi, htasks m] at hm'
          exact TPC.noConfusion hm'
      · show Function.update s.tasks i (.fetching s.nextGen) m = .start ∨
          Function.update s.tasks i (.fetching s.nextGen) m = .fetching s.nextGen ∨
          Function.update s.tasks i (.fetching s.nextGen) m = .waiting s.nextGen
        by_cases hmi : m = i
        · subst hmi
          rw [Function.update_same]
          exact Or.inr (Or.inl rfl)
        · rw [Function.update_noteq hmi]
          exact Or.inl (htasks m)
    · rw [hrd0] at hrd; exact Option.noConfusion hrd
    · rw [hc0] at hc; exact Option.noConfusion hc
  | complete i g hti =>
    rcases hs with ⟨hc0, hrd0, hfe, hcl, htasks⟩ |
      ⟨g0, hc0, hrd0, hfe, hcl, ⟨j, hj, hjuniq⟩, htasks⟩ | ⟨hc0, hrd0, hfe, hcl, htasks⟩
    · rw [htasks i] at hti; exact TPC.noConfusion hti
    · refine Or.inr (Or.inr ⟨rfl, rfl, ?_, ?_, fun m => ?_⟩)
      · show s.fetches + 1 = 1
        rw [hfe]
      · show g :: s.closed ≠ []
        exact List.cons_ne_nil g s.closed
      · show Function.update s.tasks i (.done v0) m = .start ∨
          (∃ g', Function.update s.tasks i (.done v0) m = .waiting g') ∨
          Function.update s.tasks i (.done v0) m = .done v0
        by_cases hmi : m = i
        · subst hmi
          rw [Function.update_same]
          exact Or.inr (Or.inr rfl)
        · rw [Function.update_noteq hmi]
          rcases htasks m with hm | hm | hm
          · exact Or.inl hm
          · have hig : s.tasks i = .fetching g0 := by
              rcases htasks i with h | h | h
              · rw [hti] at h; exact TPC.noConfusion h
              · exact h
              · rw [hti] at h; exact TPC.noConfusion h
            exact absurd ((hjuniq m hm).trans (hjuniq i hig).symm) hmi
          · exact Or.inr (Or.inl ⟨g0, hm⟩)
    · rcases htasks i with h | ⟨g', h⟩ | h <;> rw [hti] at h <;> exact TPC.noConfusion h
  | wake i g hti hgcl =>
    rcases hs with ⟨hc0, hrd0, hfe, hcl, htasks⟩ | ⟨g0, hc0, hrd0, hfe, hcl, hj, htasks⟩ |
      ⟨hc0, hrd0, hfe, hcl, htasks⟩
    · rw [hcl] at hgcl; cases hgcl
    · rw [hcl] at hgcl; cases hgcl
    · refine Or.inr (Or.inr ⟨hc0, hrd0, hfe, hcl, fun m => ?_⟩)
      show Function.update s.tasks i .start m = .start ∨
        (∃ g', Function.update s.tasks i .start m = .waiting g') ∨
        Function.update s.tasks i .start m = .done v0
      by_cases hmi : m = i
      · subst hmi
        rw [Function.update_same]
        exact Or.inl rfl
      · rw [Function.update_noteq hmi]
        exact htasks m

/-- The invariant holds in every reachable state. -/
theorem inv_reach {N : Nat} (v0 : Bytes) (s : SfState N)
    (h : Reach v0 (init N) s) : Inv v0 s := by
  induction h with
  | refl => exact inv_init v0 N
  | tail _ hbc ih => exact inv_step v0 _ _ ih hbc

end SingleFlight

namespace SingleFlight

open ObjAccess (Bytes)

/-- `sfW` is reachable from the cold initial state: task 0 registers, task
0 completes the fetch, task 1 hits the cache. -/
theorem sfW_reach : Reach [7] (init 2) sfW := by
  have h1 : Step [7] (init 2) sfW1 :=
    Step.register (init 2) 0 rfl rfl rfl
  have h2 : Step [7] sfW1 sfW2 :=
    Step.complete sfW1 0 0 (by decide)
  have h3 : Step [7] sfW2 sfW :=
    Step.hit sfW2 1 [7] (by decide) rfl
  exact Relation.ReflTransGen.tail
    (Relation.ReflTransGen.tail (Relation.ReflTransGen.single h1) h2) h3

/-- C9: starting cold (key in neither the LRU map nor the reading
registry) with `N ≥ 2` concurrent `get_object` callers for the key, every
interleaving keeps the key in at most one of the LRU cache and the reading
registry at every lock-release point, and every interleaving in which all
callers have finished issued exactly one backing-store fetch and gave all
`N` callers the same fetched bytes. -/
theorem single_flight_cold_period (v0 : Bytes) (N : Nat) (hN : 2 ≤ N) :
    (∀ s : SfState N, Reach v0 (init N) s →
      ¬(s.cached.isSome = true ∧ s.reading.isSome = true)) ∧
    (∀ s : SfState N, Reach v0 (init N) s →
      (∀ i, ∃ v, s.tasks i = TPC.done v) →
      s.fetches = 1 ∧ ∀ i, s.tasks i = TPC.done v0) := by
  constructor
  · rintro s hr ⟨hc, hrd⟩
    rcases inv_reach v0 s hr with ⟨hc0, _⟩ | ⟨g, hc0, _⟩ | ⟨hc0, hrd0, _⟩
    · rw [hc0] at hc; exact Bool.noConfusion hc
    · rw [hc0] at hc; exact Bool.noConfusion hc
    · rw [hrd0] at hrd; exact Bool.noConfusion hrd
  · intro s hr hdone
    rcases inv_reach v0 s hr with ⟨hc0, hrd0, hfe, hcl, htasks⟩ |
      ⟨g, hc0, hrd0, hfe, hcl, ⟨j, hj, _⟩, htasks⟩ | ⟨hc0, hrd0, hfe, hcl, htasks⟩
    · obtain ⟨v, hv⟩ := hdone ⟨0, by omega⟩
      rw [htasks ⟨0, by omega⟩] at hv
      exact TPC.noConfusion hv
    · obtain ⟨v, hv⟩ := hdone j
      rw [hj] at hv
      exact TPC.noConfusion hv
    · refine ⟨hfe, fun i => ?_⟩
      obtain ⟨v, hv⟩ := hdone i
      rcases htasks i with h | ⟨g', h⟩ | h
      · rw [hv] at h; exact TPC.noConfusion h
      · rw [hv] at h; exact TPC.noConfusion h
      · exact h

/-- Witness for C9: the concrete two-caller interleaving reaching `sfW`
made exactly one fetch and both callers hold the fetched bytes. -/
theorem single_flight_cold_period_witness :
    sfW.fetches = 1 ∧ sfW.tasks 0 = TPC.done [7] ∧ sfW.tasks 1 = TPC.done [7] :=
  have h := (single_flight_cold_period [7] 2 (by decide)).2 sfW sfW_reach
    (fun i => ⟨[7], by fin_cases i <;> rfl⟩)
  ⟨h.1, h.2 0, h.2 1⟩

/-- C8 counterexample: in the fetcher's completion critical section the
completion signal is closed BEFORE the fetched bytes are inserted into the
LRU map (`mysem.close()` precedes `c.cache.put(...)`, object_access.rs
lines 208-209), so the claimed order — insert before close — is false of
the code. -/
theorem fetcher_close_precedes_insert :
    ¬(fetcherCompletionEvents.findIdx (fun e => decide (e = SfEvent.cachePut)) <
      fetcherCompletionEvents.findIdx (fun e => decide (e = SfEvent.semClose))) := by
  decide

/-- C8 (amended): the fetcher's completion section closes the completion
signal first and only then inserts the fetched bytes into the LRU map, but
signal close and LRU insert both sit inside the same lock-held critical
section; a waiter can be signalled only once its semaphore generation is
closed, and in every reachable state in which some generation is closed
the fetched value is already in the LRU map — so every waiter that
re-looks-up after being signalled observes the fetcher's result present. -/
theorem waiter_observes_fetcher_insert (v0 : Bytes) (N : Nat) :
    (fetcherCompletionEvents.findIdx (fun e => decide (e = SfEvent.lockAcquire)) <
        fetcherCompletionEvents.findIdx (fun e => decide (e = SfEvent.semClose)) ∧
      fetcherCompletionEvents.findIdx (fun e => decide (e = SfEvent.semClose)) <
        fetcherCompletionEvents.findIdx (fun e => decide (e = SfEvent.cachePut)) ∧
      fetcherCompletionEvents.findIdx (fun e => decide (e = SfEvent.cachePut)) <
        fetcherCompletionEvents.findIdx (fun e => decide (e = SfEvent.lockRelease))) ∧
    (∀ s : SfState N, Reach v0 (init N) s →
      ∀ g, g ∈ s.closed → s.cached = some v0) := by
  refine ⟨by decide, fun s hr g hg => ?_⟩
  rcases inv_reach v0 s hr with ⟨_, _, _, hcl, _⟩ | ⟨g0, _, _, _, hcl, _⟩ | ⟨hc0, _⟩
  · rw [hcl] at hg; cases hg
  · rw [hcl] at hg; cases hg
  · exact hc0

/-- Witness for C8's amended theorem: in the concrete reachable state
`sfW` generation 0 is closed and the fetched bytes are in the cache. -/
theorem waiter_observes_fetcher_insert_witness :
    sfW.cached = some [7] :=
  (waiter_observes_fetcher_insert [7] 2).2 sfW sfW_reach 0 (by decide)

end SingleFlight
